import Mathlib

/-
Verification of cust_invoice_rename.py: a shallow embedding of the
invoice-renaming utility (path resolver, content scanner, renamer, driver)
together with proofs about its behaviour.

Strings are modelled as lists of characters.  Paths follow POSIX
pathlib semantics (separator `/`); the filesystem is a flat association
list from paths to file data, and rename failures of the platform
(missing source, permission) are modelled explicitly.
-/

set_option maxRecDepth 8000
set_option linter.unusedVariables false

namespace Kastro

/-- Character strings, modelled as lists of characters. -/
abbrev Str := List Char

/-- `startsWithStr pat s` is true when `pat` is a leading segment of `s`. -/
def startsWithStr : Str → Str → Bool
  | [], _ => true
  | _ :: _, [] => false
  | p :: ps, c :: cs => p = c && startsWithStr ps cs

/-- Python's `pat in s` substring test. -/
def strContains (s pat : Str) : Bool :=
  match s with
  | [] => startsWithStr pat []
  | c :: rest => startsWithStr pat (c :: rest) || strContains rest pat

/-- Python's `s.split(c)` for a one-character separator: the runs of `s`
between occurrences of `c` (always at least one element). -/
def splitChar (c : Char) : Str → List Str
  | [] => [[]]
  | x :: xs =>
    if x = c then [] :: splitChar c xs
    else (x :: ((splitChar c xs).head?.getD [])) :: (splitChar c xs).tail

/-- Fuel-indexed worker for `strReplace`; the fuel bounds the number of
characters consumed, so `s.length` fuel always suffices. -/
def strReplaceFuel (pat : Str) : Nat → Str → Str
  | 0, s => s
  | _ + 1, [] => []
  | fuel + 1, c :: rest =>
    if pat ≠ [] ∧ startsWithStr pat (c :: rest) = true then
      strReplaceFuel pat fuel (rest.drop (pat.length - 1))
    else c :: strReplaceFuel pat fuel rest

/-- Python's `s.replace(pat, "")`: delete every (leftmost, non-overlapping)
occurrence of `pat` from `s`. -/
def strReplace (pat s : Str) : Str := strReplaceFuel pat s.length s

/-- Fuel-indexed worker for `globMatch`. -/
def globMatchFuel : Nat → Str → Str → Bool
  | 0, _, _ => false
  | fuel + 1, p, s =>
    match p, s with
    | [], s2 => decide (s2 = [])
    | '*' :: ps, s2 =>
      globMatchFuel fuel ps s2 ||
        (match s2 with
         | [] => false
         | _ :: s3 => globMatchFuel fuel ('*' :: ps) s3)
    | '?' :: ps, s2 =>
      (match s2 with
       | [] => false
       | _ :: s3 => globMatchFuel fuel ps s3)
    | p1 :: ps, s2 =>
      (match s2 with
       | [] => false
       | c :: s3 => p1 = c && globMatchFuel fuel ps s3)

/-- `fnmatch.fnmatch(s, pat)` on a case-sensitive (POSIX) platform, for
patterns built from literals, `*` and `?` (no character classes). -/
def globMatch (pat s : Str) : Bool := globMatchFuel (pat.length + s.length + 1) pat s

/-- Index of the last `.` in a name (Python's `name.rfind('.')`), if any. -/
def rfindDot (n : Str) : Option Nat :=
  ((List.range n.length).filter (fun i => decide (n.getD i ' ' = '.'))).getLast?

/-- `pathlib` suffix of a basename: from the last dot on, provided that dot
is neither the first nor the last character; otherwise empty. -/
def pySuffixOfName (n : Str) : Str :=
  match rfindDot n with
  | some i => if 0 < i ∧ i + 1 < n.length then n.drop i else []
  | none => []

/-- `pathlib` stem of a basename: the basename with `pySuffixOfName` removed. -/
def pyStemOfName (n : Str) : Str :=
  match rfindDot n with
  | some i => if 0 < i ∧ i + 1 < n.length then n.take i else n
  | none => n

/-- The normalized components of a POSIX path: split on `/`, dropping empty
runs and `.` components, as `pathlib` does. -/
def pathParts (p : Str) : List Str :=
  (splitChar '/' p).filter (fun s => decide (s ≠ []) && decide (s ≠ ['.']))

/-- Whether a POSIX path is absolute (begins with `/`). -/
def pathIsAbs (p : Str) : Bool :=
  match p with
  | c :: _ => c = '/'
  | [] => false

/-- Join path components with `/` between them. -/
def interParts : List Str → Str
  | [] => []
  | [p] => p
  | p :: ps => p ++ '/' :: interParts ps

/-- Render a `pathlib` path from its absoluteness flag and components
(`str(PurePosixPath(...))`): the empty relative path renders as `.`. -/
def renderPath (isab : Bool) (ps : List Str) : Str :=
  if isab then '/' :: interParts ps
  else if ps = [] then ['.'] else interParts ps

/-- `Path(p).name`: the final component, or empty when there is none. -/
def pyName (p : Str) : Str := ((pathParts p).getLast?).getD []

/-- `Path(p).stem`. -/
def pyStem (p : Str) : Str := pyStemOfName (pyName p)

/-- `Path(p).suffix`. -/
def pySuffix (p : Str) : Str := pySuffixOfName (pyName p)

/-- `str(Path(p).parent)`: drop the final component and re-render. -/
def pyParent (p : Str) : Str := renderPath (pathIsAbs p) (pathParts p).dropLast

/-- `str(Path(d, b))`: `pathlib` two-argument combination (an absolute
second argument supersedes the first). -/
def pyJoin (d b : Str) : Str :=
  if pathIsAbs b then renderPath true (pathParts b)
  else renderPath (pathIsAbs d) (pathParts d ++ pathParts b)

/-- The search marker (`CUST_ACCT_SEARCH_STR` in the script). -/
def CUST_ACCT_SEARCH_STR : Str := "Customer Acct Number".toList

/-- The stop marker (`END_SEEK_MARKER` in the script). -/
def END_SEEK_MARKER : Str := "</ReferenceNumbers>".toList

/-- `data.split(">")[1].split("<")[0]` from line 97 of the script:
`none` models the `IndexError` raised when `data` has no `>`. -/
def extractCustName (data : Str) : Option Str :=
  match splitChar '>' data with
  | _ :: second :: _ =>
    some (match splitChar '<' second with
          | first :: _ => first
          | [] => [])
  | _ => none

/-- Result of the scanning loop of `file_load_and_search` on the lines it
can see: it either breaks with a value for `cust_name`, raises an
`IndexError` during extraction, or asks for more input. -/
inductive ScanOutcome where
  | done (s : Str)
  | raised
  | more
deriving DecidableEq, Repr

/-- The `while data:` loop of `file_load_and_search` (lines 88-99).  Note
that the `break` for the stop marker sits inside `if args.verbose:`, so
with `verbose = false` a stop-marker line falls through to the search
test and then to the next line. -/
def scanLoop (verbose : Bool) : List Str → ScanOutcome
  | [] => .more
  | data :: rest =>
    if (strContains data END_SEEK_MARKER && verbose) = true then .done []
    else if strContains data CUST_ACCT_SEARCH_STR = true then
      match extractCustName data with
      | some t => .done t
      | none => .raised
    else scanLoop verbose rest

/-- What a file read yields: either all lines up to end of file, or some
lines followed by an I/O or decoding failure (`failAt []` models a file
that cannot even be opened). -/
inductive ReadResult where
  | ok (lines : List Str)
  | failAt (lines : List Str)
deriving DecidableEq, Repr

/-- `file_load_and_search` (lines 77-105): run the scanning loop over the
readable lines; the bare `except:` turns any raised error into a normal
return, and `cust_name` is still `""` both then and at end of file. -/
def file_load_and_search (verbose : Bool) (r : ReadResult) : Str :=
  match r with
  | .ok lines =>
    match scanLoop verbose lines with
    | .done s => s
    | .raised => []
    | .more => []
  | .failAt lines =>
    match scanLoop verbose lines with
    | .done s => s
    | .raised => []
    | .more => []

/-- Equality of `Except` values is decidable when it is on both sides. -/
instance exceptDecEq {ε α : Type} [DecidableEq ε] [DecidableEq α] :
    DecidableEq (Except ε α)
  | Except.ok x, Except.ok y =>
    if h : x = y then Decidable.isTrue (by rw [h])
    else Decidable.isFalse (fun hc => h (Except.ok.inj hc))
  | Except.ok _, Except.error _ => Decidable.isFalse (fun hc => Except.noConfusion hc)
  | Except.error _, Except.ok _ => Decidable.isFalse (fun hc => Except.noConfusion hc)
  | Except.error x, Except.error y =>
    if h : x = y then Decidable.isTrue (by rw [h])
    else Decidable.isFalse (fun hc => h (Except.error.inj hc))

/-- A file as the platform sees it: its readable content, and whether the
platform will let a rename with this file as source succeed (renames can
fail for reasons such as permissions; the script does not control this). -/
structure FSEntry where
  content : ReadResult
  canRename : Bool
deriving DecidableEq, Repr

/-- The filesystem: an association list from paths to files. -/
abbrev FS := List (Str × FSEntry)

/-- Look a path up in the filesystem. -/
def lookupFS : FS → Str → Option FSEntry
  | [], _ => none
  | (p, e) :: rest, q => if p = q then some e else lookupFS rest q

/-- Remove a path from the filesystem. -/
def removeKey : FS → Str → FS
  | [], _ => []
  | (p, e) :: rest, q => if p = q then removeKey rest q else (p, e) :: removeKey rest q

/-- POSIX `os.rename` semantics as used by `Path.rename`: error when the
source is missing or the platform refuses; otherwise move the entry,
silently replacing any existing destination. -/
def osRename (fs : FS) (src dst : Str) : Except Unit FS :=
  match lookupFS fs src with
  | none => Except.error ()
  | some e =>
    if e.canRename then Except.ok ((dst, e) :: removeKey (removeKey fs src) dst)
    else Except.error ()

/-- `open(fn, 'r')` plus the reads: a missing path raises at `open`,
modelled as a failure before any line. -/
def readFS (fs : FS) (fn : Str) : ReadResult :=
  match lookupFS fs fn with
  | none => ReadResult.failAt []
  | some e => e.content

/-- The new path built on line 123 of the script:
`Path(f_info.parent, f"{name}_{f_info.stem}{f_info.suffix}")`. -/
def file_rename_target (fn name : Str) : Str :=
  pyJoin (pyParent fn) (name ++ '_' :: (pyStem fn ++ pySuffix fn))

/-- `file_rename` (lines 107-127): return untouched when `name in fn`
(the substring test is against the whole path string), else rename. -/
def file_rename (fn name : Str) (fs : FS) : Except Unit FS :=
  if strContains fn name = true then Except.ok fs
  else osRename fs fn (file_rename_target fn name)

/-- `resolve_windows_path` (lines 28-57): strip every occurrence of the
final component from the path (`str.replace`), defaulting to `.` when
nothing is left, then emit `corrected_path + child` for every directory
child matching the component.  The directory listing is the environment's
answer to `os.listdir(corrected_path)`. -/
def resolve_windows_path (verbose : Bool) (listing : List Str) (path : Str) : List Str :=
  let match_search_info := pyStem path ++ pySuffix path
  let corrected0 := strReplace match_search_info path
  let corrected_path := if corrected0 = [] then ['.'] else corrected0
  (listing.filter (fun f => globMatch match_search_info f)).map
    (fun f => corrected_path ++ f)

/-- `read_cli` (lines 59-75) after argument parsing: `none` models
`exit(-1)` on an empty file list; a single argument containing `*` is
replaced by the resolver's expansion. -/
def read_cli (verbose : Bool) (listing : List Str) (files : List Str) : Option (List Str) :=
  if files.length ≤ 0 then none
  else if files.length = 1 ∧ '*' ∈ files.headD [] then
    some (resolve_windows_path verbose listing (files.headD []))
  else some files

/-- One iteration of the driver loop (lines 140-147): scan, skip on an
empty customer name, otherwise rename.  An `error` is an uncaught Python
exception escaping the loop. -/
def processFile (verbose : Bool) (fs : FS) (fn : Str) : Except Unit FS :=
  let cust_name := file_load_and_search verbose (readFS fs fn)
  if cust_name = [] then Except.ok fs
  else file_rename fn cust_name fs

/-- Outcome of the driver loop: normal completion, or an uncaught
exception (which makes the interpreter exit with status 1), each with the
filesystem as it stands at that moment. -/
inductive RunResult where
  | ok (fs : FS)
  | crashed (fs : FS)
deriving DecidableEq, Repr

/-- The `for fn in args.files:` loop of the main block. -/
def driverRun (verbose : Bool) (fs : FS) : List Str → RunResult
  | [] => .ok fs
  | fn :: rest =>
    match processFile verbose fs fn with
    | Except.ok fs2 => driverRun verbose fs2 rest
    | Except.error _ => .crashed fs

/-- The whole invocation: exit status (−1 for no arguments, 0 for normal
completion, 1 for an uncaught exception) paired with the final
filesystem. -/
def mainRun (verbose : Bool) (listing : List Str) (args : List Str) (fs : FS) : Int × FS :=
  match read_cli verbose listing args with
  | none => (-1, fs)
  | some files =>
    match driverRun verbose fs files with
    | .ok fs2 => (0, fs2)
    | .crashed fs2 => (1, fs2)

/-- A single rename of an existing, renamable file, with POSIX overwrite
of the destination: the only kind of mutation the script performs. -/
def RenameStep (fs fs2 : FS) : Prop :=
  ∃ src dst e, lookupFS fs src = some e ∧ e.canRename = true ∧
    fs2 = (dst, e) :: removeKey (removeKey fs src) dst

/-- The token the spec's C3 sentence describes: the substring of the line
strictly between the first `>` and the next `<` after it. -/
def specBetween (data : Str) : Str :=
  ((data.dropWhile (fun c => c != '>')).drop 1).takeWhile (fun c => c != '<')

/-- What line 97 actually extracts: the text after the first `>`,
truncated at the first following `>` or `<`, whichever comes first. -/
def amendedToken (data : Str) : Str :=
  ((data.dropWhile (fun c => c != '>')).drop 1).takeWhile
    (fun c => c != '>' && c != '<')

/-- The filesystem a `RunResult` carries. -/
def resultFS : RunResult → FS
  | .ok fs => fs
  | .crashed fs => fs

/-- A header line that is exactly the stop marker. -/
def sampleStopLine : Str := "</ReferenceNumbers>".toList

/-- A reference-number line carrying customer name `ACME`. -/
def sampleSearchLine : Str :=
  "<ReferenceNumber ReferenceQualifier=\"Customer Acct Number\">ACME</ReferenceNumber>".toList

/-- A search-marker line with a second `>` before the closing `<`. -/
def sampleGtLine : Str := "Customer Acct Number>A>B<C".toList

/-- A reference-number line carrying customer name `A`. -/
def lineTokenA : Str := "<R q=\"Customer Acct Number\">A</R>".toList

/-- A reference-number line carrying customer name `B`. -/
def lineTokenB : Str := "<R q=\"Customer Acct Number\">B</R>".toList

/-- A file yielding token `A` whose rename the platform refuses. -/
def entryA : FSEntry := ⟨ReadResult.ok [lineTokenA], false⟩

/-- A file yielding token `B`, renamable. -/
def entryB : FSEntry := ⟨ReadResult.ok [lineTokenB], true⟩

/-- A two-file filesystem: `a.xml` (rename refused) and `b.xml`. -/
def fsAB : FS := [("a.xml".toList, entryA), ("b.xml".toList, entryB)]

/-- A one-file filesystem whose path has the token in its directory. -/
def fsDirTok : FS := [("ACME/inv.xml".toList, entryB)]

/-! ### Substring facts -/

theorem startsWithStr_iff (p : Str) : ∀ s, startsWithStr p s = true ↔ ∃ t, s = p ++ t := by
  induction p with
  | nil => intro s; simp [startsWithStr]
  | cons a as ih =>
    intro s
    cases s with
    | nil => simp [startsWithStr]
    | cons b bs =>
      simp only [startsWithStr, Bool.and_eq_true, decide_eq_true_eq, ih, List.cons_append]
      constructor
      · rintro ⟨rfl, t, rfl⟩
        exact ⟨t, rfl⟩
      · rintro ⟨t, h⟩
        injection h with h1 h2
        exact ⟨h1.symm, t, h2⟩

theorem strContains_iff (s pat : Str) :
    strContains s pat = true ↔ ∃ a b, s = a ++ pat ++ b := by
  induction s with
  | nil =>
    simp only [strContains, startsWithStr_iff]
    constructor
    · rintro ⟨t, h⟩
      rcases List.append_eq_nil.1 h.symm with ⟨h1, h2⟩
      exact ⟨[], [], by simp [h1]⟩
    · rintro ⟨a, b, h⟩
      rcases List.append_eq_nil.1 h.symm with ⟨h1, h2⟩
      rcases List.append_eq_nil.1 h1 with ⟨h3, h4⟩
      exact ⟨[], by simp [h4]⟩
  | cons c rest ih =>
    simp only [strContains, Bool.or_eq_true, startsWithStr_iff, ih]
    constructor
    · rintro (⟨t, h⟩ | ⟨a, b, rfl⟩)
      · exact ⟨[], t, by simpa using h⟩
      · exact ⟨c :: a, b, by simp⟩
    · rintro ⟨a, b, h⟩
      cases a with
      | nil =>
        exact Or.inl ⟨b, by simpa using h⟩
      | cons a0 as =>
        injection h with h1 h2
        exact Or.inr ⟨as, b, h2⟩

theorem strContains_nil (s : Str) : strContains s [] = true := by
  cases s <;> simp [strContains, startsWithStr]

theorem mem_of_strContains {s pat : Str} {c : Char}
    (h : strContains s pat = true) (hc : c ∈ pat) : c ∈ s := by
  rcases (strContains_iff s pat).1 h with ⟨a, b, rfl⟩
  simp [hc]

theorem strContains_cons_false {c : Char} {rest pat : Str}
    (h : strContains (c :: rest) pat = false) : strContains rest pat = false := by
  by_contra hne
  have : strContains rest pat = true := by
    cases hr : strContains rest pat
    · exact absurd hr hne
    · rfl
  simp [strContains, this] at h

/-! ### splitChar facts -/

theorem splitChar_ne_nil (c : Char) (s : Str) : splitChar c s ≠ [] := by
  cases s with
  | nil => simp [splitChar]
  | cons x xs =>
    simp only [splitChar]
    split <;> simp

theorem splitChar_headD (c : Char) : ∀ s : Str,
    (splitChar c s).head?.getD [] = s.takeWhile (fun x => x != c) := by
  intro s
  induction s with
  | nil => simp [splitChar]
  | cons x xs ih =>
    simp only [splitChar]
    by_cases h : x = c
    · subst h
      simp [List.takeWhile_cons]
    · rw [if_neg h]
      have hx : (x != c) = true := by simpa using h
      simp [List.takeWhile_cons, hx, ih]

theorem splitChar_sep_append (c : Char) : ∀ a b : Str,
    splitChar c (a ++ c :: b) = splitChar c a ++ splitChar c b := by
  intro a b
  induction a with
  | nil => simp [splitChar]
  | cons x a2 ih =>
    simp only [List.cons_append, splitChar]
    by_cases h : x = c
    · simp [h, ih]
    · rw [if_neg h, if_neg h]
      simp only [List.append_eq]
      rw [ih]
      cases hsa : splitChar c a2 with
      | nil => exact absurd hsa (splitChar_ne_nil c a2)
      | cons y ys => simp [hsa]

theorem splitChar_no_sep (c : Char) : ∀ s : Str, c ∉ s → splitChar c s = [s] := by
  intro s
  induction s with
  | nil => intro _; rfl
  | cons x xs ih =>
    intro h
    have hx : ¬x = c := fun hxc => h (by simp [hxc])
    have hxs : c ∉ xs := fun hm => h (by simp [hm])
    simp only [splitChar]
    rw [if_neg hx, ih hxs]
    simp

/-! ### Extraction facts -/

theorem takeWhile_and (p q : Char → Bool) : ∀ l : Str,
    (l.takeWhile p).takeWhile q = l.takeWhile (fun a => p a && q a) := by
  intro l
  induction l with
  | nil => rfl
  | cons a l2 ih =>
    cases hp : p a <;> cases hq : q a <;>
      simp [List.takeWhile_cons, hp, hq, ih]

theorem dropWhile_all {p : Char → Bool} : ∀ l : Str, (∀ x ∈ l, p x = true) →
    l.dropWhile p = [] := by
  intro l
  induction l with
  | nil => intro _; rfl
  | cons a l2 ih =>
    intro h
    rw [List.dropWhile_cons]
    simp [h a (by simp), ih (fun x hx => h x (by simp [hx]))]

theorem extractCustName_no_gt {data : Str} (h : ('>' : Char) ∉ data) :
    extractCustName data = none := by
  simp [extractCustName, splitChar_no_sep '>' data h]

theorem amendedToken_no_gt {data : Str} (h : ('>' : Char) ∉ data) :
    amendedToken data = [] := by
  have hall : ∀ x ∈ data, (x != '>') = true := by
    intro x hx
    have : ¬x = '>' := fun hxe => h (hxe ▸ hx)
    simpa using this
  simp [amendedToken, dropWhile_all data hall]

theorem extractCustName_cons_ne {c : Char} (hc : ¬c = '>') (rest : Str) :
    extractCustName (c :: rest) = extractCustName rest := by
  simp only [extractCustName, splitChar]
  rw [if_neg hc]
  cases hsa : splitChar '>' rest with
  | nil => exact absurd hsa (splitChar_ne_nil _ _)
  | cons y ys =>
    cases ys <;> simp

theorem amendedToken_cons_ne {c : Char} (hc : ¬c = '>') (rest : Str) :
    amendedToken (c :: rest) = amendedToken rest := by
  simp [amendedToken, List.dropWhile_cons, hc]

theorem extractCustName_gt : ∀ data : Str, ('>' : Char) ∈ data →
    extractCustName data = some (amendedToken data) := by
  intro data
  induction data with
  | nil => intro h; simp at h
  | cons c rest ih =>
    intro h
    by_cases hc : c = '>'
    · subst hc
      have hstep : extractCustName ('>' :: rest)
          = some ((rest.takeWhile (fun x => x != '>')).takeWhile (fun x => x != '<')) := by
        have hsplit : splitChar '>' ('>' :: rest) = [] :: splitChar '>' rest := by
          simp [splitChar]
        cases hsa : splitChar '>' rest with
        | nil => exact absurd hsa (splitChar_ne_nil _ _)
        | cons y ys =>
          have hy : y = rest.takeWhile (fun x => x != '>') := by
            have hh := splitChar_headD '>' rest
            rw [hsa] at hh
            simpa using hh
          cases hsb : splitChar '<' y with
          | nil => exact absurd hsb (splitChar_ne_nil _ _)
          | cons y2 ys2 =>
            have hy2 : y2 = y.takeWhile (fun x => x != '<') := by
              have hh := splitChar_headD '<' y
              rw [hsb] at hh
              simpa using hh
            simp only [extractCustName, hsplit, hsa, hsb]
            rw [hy2, hy]
      rw [hstep]
      have htok : amendedToken ('>' :: rest)
          = rest.takeWhile (fun a => a != '>' && a != '<') := by
        simp [amendedToken, List.dropWhile_cons]
      rw [htok, takeWhile_and]
    · have hmem : ('>' : Char) ∈ rest := by
        rcases List.mem_cons.1 h with h1 | h1
        · exact absurd h1.symm hc
        · exact h1
      rw [extractCustName_cons_ne hc, amendedToken_cons_ne hc]
      exact ih hmem

/-! ### Scan-loop facts -/

theorem scanLoop_append (v : Bool) : ∀ a b : List Str,
    scanLoop v (a ++ b)
      = match scanLoop v a with
        | .more => scanLoop v b
        | r => r := by
  intro a b
  induction a with
  | nil => simp [scanLoop]
  | cons data a2 ih =>
    simp only [List.cons_append, scanLoop]
    by_cases h1 : (strContains data END_SEEK_MARKER && v) = true
    · simp [h1]
    · rw [if_neg h1, if_neg h1]
      by_cases h2 : strContains data CUST_ACCT_SEARCH_STR = true
      · rw [if_pos h2, if_pos h2]
        cases extractCustName data <;> simp
      · rw [if_neg h2, if_neg h2]
        exact ih

theorem scanLoop_pass (v : Bool) : ∀ a : List Str,
    (∀ l ∈ a, strContains l CUST_ACCT_SEARCH_STR = false ∧
       ¬(strContains l END_SEEK_MARKER = true ∧ v = true)) →
    scanLoop v a = .more := by
  intro a
  induction a with
  | nil => intro _; rfl
  | cons data a2 ih =>
    intro h
    rcases h data (by simp) with ⟨hs, he⟩
    have h1 : ¬(strContains data END_SEEK_MARKER && v) = true := by
      simp only [Bool.and_eq_true]
      exact he
    simp only [scanLoop]
    rw [if_neg h1, if_neg (by simp [hs])]
    exact ih (fun l hl => h l (by simp [hl]))

theorem scanLoop_nosearch (v : Bool) : ∀ a : List Str,
    (∀ l ∈ a, strContains l CUST_ACCT_SEARCH_STR = false) →
    scanLoop v a = .more ∨ scanLoop v a = .done [] := by
  intro a
  induction a with
  | nil => intro _; exact Or.inl rfl
  | cons data a2 ih =>
    intro h
    have hs := h data (by simp)
    simp only [scanLoop]
    by_cases h1 : (strContains data END_SEEK_MARKER && v) = true
    · rw [if_pos h1]
      exact Or.inr rfl
    · rw [if_neg h1, if_neg (by simp [hs])]
      exact ih (fun l hl => h l (by simp [hl]))

/-! ### strReplace facts -/

theorem strReplaceFuel_nil (pat : Str) : ∀ f, strReplaceFuel pat f [] = [] := by
  intro f
  cases f <;> rfl

theorem startsWithStr_refl (p : Str) : startsWithStr p p = true := by
  rw [startsWithStr_iff]
  exact ⟨[], by simp⟩

theorem strReplaceFuel_self {p : Str} (hp : p ≠ []) :
    ∀ f, p.length ≤ f → strReplaceFuel p f p = [] := by
  intro f hf
  cases p with
  | nil => exact absurd rfl hp
  | cons c rest =>
    cases f with
    | zero => simp at hf
    | succ f2 =>
      simp only [strReplaceFuel]
      rw [if_pos ⟨hp, startsWithStr_refl _⟩]
      have hdrop : rest.drop ((c :: rest).length - 1) = [] := by
        simp [List.drop_length]
      rw [hdrop, strReplaceFuel_nil]

theorem strReplace_self {p : Str} (hp : p ≠ []) : strReplace p p = [] :=
  strReplaceFuel_self hp p.length (le_refl _)

theorem not_startsWith_mid {p dirAll : Str} (hp : ('/' : Char) ∉ p)
    (hdir : strContains dirAll p = false) (rest2 : Str) :
    ¬startsWithStr p (dirAll ++ '/' :: rest2) = true := by
  intro hs
  rcases (startsWithStr_iff p _).1 hs with ⟨t, ht⟩
  by_cases hle : p.length ≤ dirAll.length
  · have htake : (p ++ t).take p.length = p := List.take_left p t
    have htake2 : (dirAll ++ '/' :: rest2).take p.length = dirAll.take p.length :=
      List.take_append_of_le_length hle
    have h5 : (dirAll ++ '/' :: rest2).take p.length = (p ++ t).take p.length := by
      rw [ht]
    rw [htake, htake2] at h5
    have hsw : startsWithStr p dirAll = true := by
      rw [startsWithStr_iff]
      refine ⟨dirAll.drop p.length, ?_⟩
      have hsplit := List.take_append_drop p.length dirAll
      rw [h5] at hsplit
      exact hsplit.symm
    cases dirAll with
    | nil => simp [strContains, hsw] at hdir
    | cons d0 ds => simp [strContains, hsw] at hdir
  · push_neg at hle
    have h1 : (dirAll ++ '/' :: rest2).take (dirAll.length + 1) = dirAll ++ ['/'] := by
      rw [List.take_append]
      simp
    have h2 : (p ++ t).take (dirAll.length + 1) = p.take (dirAll.length + 1) :=
      List.take_append_of_le_length (by omega)
    have h3 : p.take (dirAll.length + 1) = dirAll ++ ['/'] := by
      rw [← h2, ← ht, h1]
    have hmem : ('/' : Char) ∈ p.take (dirAll.length + 1) := by
      rw [h3]
      simp
    exact hp (List.mem_of_mem_take hmem)

theorem strReplaceFuel_mid {p : Str} (hp : p ≠ []) (hslash : ('/' : Char) ∉ p) :
    ∀ dir : Str, strContains dir p = false →
      ∀ f, (dir ++ '/' :: p).length ≤ f →
        strReplaceFuel p f (dir ++ '/' :: p) = dir ++ ['/'] := by
  intro dir
  induction dir with
  | nil =>
    intro hdir f hf
    cases f with
    | zero => simp at hf
    | succ f2 =>
      simp only [List.nil_append, strReplaceFuel]
      have hneg : ¬(p ≠ [] ∧ startsWithStr p ('/' :: p) = true) := by
        rintro ⟨_, h2⟩
        exact not_startsWith_mid hslash hdir p h2
      rw [if_neg hneg]
      rw [strReplaceFuel_self hp f2 (by simp at hf; omega)]
  | cons d dir2 ih =>
    intro hdir f hf
    cases f with
    | zero => simp at hf
    | succ f2 =>
      simp only [List.cons_append, strReplaceFuel]
      simp only [List.append_eq]
      have hneg : ¬(p ≠ [] ∧ startsWithStr p (d :: (dir2 ++ '/' :: p)) = true) := by
        rintro ⟨_, h2⟩
        exact not_startsWith_mid hslash hdir p h2
      rw [if_neg hneg]
      rw [ih (strContains_cons_false hdir) f2 (by simp at hf ⊢; omega)]

theorem strReplace_mid {p : Str} (hp : p ≠ []) (hslash : ('/' : Char) ∉ p)
    {dir : Str} (hdir : strContains dir p = false) :
    strReplace p (dir ++ '/' :: p) = dir ++ ['/'] :=
  strReplaceFuel_mid hp hslash dir hdir _ (le_refl _)

/-! ### Path facts -/

theorem pathParts_nil : pathParts [] = [] := by
  simp [pathParts, splitChar]

theorem pathParts_sep_append (a b : Str) :
    pathParts (a ++ '/' :: b) = pathParts a ++ pathParts b := by
  simp [pathParts, splitChar_sep_append, List.filter_append]

theorem pathParts_single {b : Str} (h1 : b ≠ []) (h2 : ('/' : Char) ∉ b)
    (h3 : b ≠ ['.']) : pathParts b = [b] := by
  simp only [pathParts]
  rw [splitChar_no_sep '/' b h2]
  simp [h1, h3]

theorem splitChar_mem_not (c : Char) : ∀ s : Str, ∀ x ∈ splitChar c s, c ∉ x := by
  intro s
  induction s with
  | nil =>
    intro x hx
    simp [splitChar] at hx
    subst hx
    simp
  | cons a s2 ih =>
    intro x hx
    simp only [splitChar] at hx
    by_cases h : a = c
    · rw [if_pos h] at hx
      rcases List.mem_cons.1 hx with rfl | hm
      · simp
      · exact ih x hm
    · rw [if_neg h] at hx
      rcases List.mem_cons.1 hx with rfl | hm
      · intro hcx
        rcases List.mem_cons.1 hcx with hca | hm2
        · exact h hca.symm
        · cases hsa : splitChar c s2 with
          | nil => rw [hsa] at hm2; simp at hm2
          | cons y ys =>
            rw [hsa] at hm2
            simp at hm2
            exact ih y (by simp [hsa]) hm2
      · cases hsa : splitChar c s2 with
        | nil => rw [hsa] at hm; simp at hm
        | cons y ys =>
          rw [hsa] at hm
          simp at hm
          exact ih x (by simp [hsa, hm])

theorem pathParts_clean (p : Str) : ∀ x ∈ pathParts p,
    x ≠ [] ∧ x ≠ ['.'] ∧ ('/' : Char) ∉ x := by
  intro x hx
  simp only [pathParts, List.mem_filter] at hx
  rcases hx with ⟨hmem, hpred⟩
  simp only [Bool.and_eq_true, decide_eq_true_eq] at hpred
  exact ⟨hpred.1, hpred.2, splitChar_mem_not '/' p x hmem⟩

theorem interParts_concat : ∀ ps : List Str, ps ≠ [] → ∀ q,
    interParts (ps ++ [q]) = interParts ps ++ '/' :: q := by
  intro ps
  induction ps with
  | nil => intro h; exact absurd rfl h
  | cons p ps2 ih =>
    intro _ q
    cases ps2 with
    | nil => simp [interParts]
    | cons r rs =>
      simp only [List.cons_append, interParts]
      simp only [List.append_eq]
      have hih := ih (by simp) q
      simp only [List.cons_append] at hih
      rw [hih]
      simp [List.append_assoc]

theorem pathParts_inter : ∀ ps : List Str,
    (∀ x ∈ ps, x ≠ [] ∧ x ≠ ['.'] ∧ ('/' : Char) ∉ x) →
    pathParts (interParts ps) = ps := by
  intro ps
  induction ps with
  | nil => intro _; exact pathParts_nil
  | cons p ps2 ih =>
    intro h
    rcases h p (by simp) with ⟨h1, h2, h3⟩
    cases ps2 with
    | nil => exact pathParts_single h1 h3 h2
    | cons r rs =>
      simp only [interParts]
      rw [pathParts_sep_append, pathParts_single h1 h3 h2,
        ih (fun x hx => h x (by simp [hx]))]
      rfl

theorem pathParts_render (isab : Bool) (ps : List Str)
    (h : ∀ x ∈ ps, x ≠ [] ∧ x ≠ ['.'] ∧ ('/' : Char) ∉ x) :
    pathParts (renderPath isab ps) = ps := by
  cases isab with
  | true =>
    have hr : renderPath true ps = [] ++ '/' :: interParts ps := by simp [renderPath]
    rw [hr, pathParts_sep_append, pathParts_nil, pathParts_inter ps h]
    rfl
  | false =>
    cases ps with
    | nil =>
      simp only [renderPath]
      decide
    | cons p ps2 =>
      have hr : renderPath false (p :: ps2) = interParts (p :: ps2) := by
        simp [renderPath]
      rw [hr, pathParts_inter _ h]

theorem pathIsAbs_head {p : Str} (h1 : p ≠ []) (h3 : ('/' : Char) ∉ p) (z : Str) :
    pathIsAbs (p ++ z) = false := by
  cases p with
  | nil => exact absurd rfl h1
  | cons p0 p1 =>
    have hne : ¬p0 = '/' := fun he => h3 (by simp [he])
    simp [pathIsAbs, hne]

theorem pathIsAbs_render (isab : Bool) (ps : List Str)
    (h : ∀ x ∈ ps, x ≠ [] ∧ x ≠ ['.'] ∧ ('/' : Char) ∉ x) :
    pathIsAbs (renderPath isab ps) = isab := by
  cases isab with
  | true => simp [renderPath, pathIsAbs]
  | false =>
    cases ps with
    | nil => simp [renderPath]; decide
    | cons p ps2 =>
      have hr : renderPath false (p :: ps2) = interParts (p :: ps2) := by
        simp [renderPath]
      rcases h p (by simp) with ⟨h1, _, h3⟩
      rw [hr]
      cases ps2 with
      | nil =>
        have : interParts [p] = p ++ [] := by simp [interParts]
        rw [this]
        exact pathIsAbs_head h1 h3 []
      | cons r rs =>
        have : interParts (p :: r :: rs) = p ++ '/' :: interParts (r :: rs) := by
          simp [interParts]
        rw [this]
        exact pathIsAbs_head h1 h3 _

theorem pathIsAbs_append {dir : Str} (h : dir ≠ []) (x : Str) :
    pathIsAbs (dir ++ x) = pathIsAbs dir := by
  cases dir with
  | nil => exact absurd rfl h
  | cons d ds => simp [pathIsAbs]

theorem pyName_concat {dir base : Str} (h1 : base ≠ []) (h2 : ('/' : Char) ∉ base)
    (h3 : base ≠ ['.']) : pyName (dir ++ '/' :: base) = base := by
  simp only [pyName]
  rw [pathParts_sep_append, pathParts_single h1 h2 h3]
  simp

theorem pyStemOfName_append_suffix (n : Str) :
    pyStemOfName n ++ pySuffixOfName n = n := by
  simp only [pyStemOfName, pySuffixOfName]
  cases h : rfindDot n with
  | none => simp
  | some i =>
    by_cases hc : 0 < i ∧ i + 1 < n.length
    · simp [hc, List.take_append_drop]
    · simp [hc]

theorem renderPath_concat {dir nb : Str}
    (hnb1 : nb ≠ []) (hnb2 : nb ≠ ['.'] ) (hnb3 : ('/' : Char) ∉ nb)
    (hdir : dir = [] ∨ (renderPath (pathIsAbs dir) (pathParts dir) = dir ∧
      dir ≠ ['.'] ∧ dir ≠ ['/'])) :
    renderPath (pathIsAbs (dir ++ '/' :: nb)) (pathParts dir ++ [nb])
      = dir ++ '/' :: nb := by
  rcases hdir with rfl | ⟨hnorm, hdot, hroot⟩
  · rw [pathParts_nil]
    simp [renderPath, pathIsAbs, interParts]
  · have hne : dir ≠ [] := by
      intro he
      subst he
      rw [pathParts_nil] at hnorm
      simp [renderPath, pathIsAbs] at hnorm
    have habs : pathIsAbs (dir ++ '/' :: nb) = pathIsAbs dir := pathIsAbs_append hne _
    rw [habs]
    cases hab : pathIsAbs dir with
    | true =>
      have hdir_eq : dir = '/' :: interParts (pathParts dir) := by
        conv_lhs => rw [← hnorm]
        rw [hab]
        simp [renderPath]
      cases hps : pathParts dir with
      | nil =>
        rw [hps] at hdir_eq
        simp [interParts] at hdir_eq
        exact absurd hdir_eq hroot
      | cons q qs =>
        have hr : renderPath true ((q :: qs) ++ [nb]) = '/' :: interParts ((q :: qs) ++ [nb]) := by
          simp [renderPath]
        rw [hr, interParts_concat (q :: qs) (by simp) nb]
        rw [hps] at hdir_eq
        rw [hdir_eq]
        simp
    | false =>
      have hps_ne : pathParts dir ≠ [] := by
        intro he
        rw [he, hab] at hnorm
        simp [renderPath] at hnorm
        exact hdot hnorm.symm
      have hdir_eq : dir = interParts (pathParts dir) := by
        conv_lhs => rw [← hnorm]
        rw [hab]
        simp [renderPath, hps_ne]
      cases hps : pathParts dir with
      | nil => exact absurd hps hps_ne
      | cons q qs =>
        have hr : renderPath false ((q :: qs) ++ [nb]) = interParts ((q :: qs) ++ [nb]) := by
          simp [renderPath]
        rw [hr, interParts_concat (q :: qs) (by simp) nb]
        rw [hps] at hdir_eq
        rw [hdir_eq]

/-! ### Driver facts -/

theorem processFile_effect {v : Bool} {fs : FS} {fn : Str} {fs2 : FS}
    (h : processFile v fs fn = Except.ok fs2) : fs2 = fs ∨ RenameStep fs fs2 := by
  simp only [processFile] at h
  by_cases hc : file_load_and_search v (readFS fs fn) = []
  · rw [if_pos hc] at h
    exact Or.inl (Except.ok.inj h).symm
  · rw [if_neg hc] at h
    simp only [file_rename] at h
    by_cases hg : strContains fn (file_load_and_search v (readFS fs fn)) = true
    · rw [if_pos hg] at h
      exact Or.inl (Except.ok.inj h).symm
    · rw [if_neg hg] at h
      simp only [osRename] at h
      cases hl : lookupFS fs fn with
      | none =>
        rw [hl] at h
        exact absurd h (by simp)
      | some e =>
        rw [hl] at h
        dsimp only at h
        by_cases hcr : e.canRename = true
        · rw [if_pos hcr] at h
          exact Or.inr ⟨fn, file_rename_target fn _, e, hl, hcr, (Except.ok.inj h).symm⟩
        · rw [if_neg hcr] at h
          exact absurd h (by simp)

theorem driverRun_reach (v : Bool) : ∀ (files : List Str) (fs : FS),
    Relation.ReflTransGen RenameStep fs (resultFS (driverRun v fs files)) := by
  intro files
  induction files with
  | nil =>
    intro fs
    exact Relation.ReflTransGen.refl
  | cons fn rest ih =>
    intro fs
    simp only [driverRun]
    cases hp : processFile v fs fn with
    | ok fs2 =>
      rcases processFile_effect hp with he | hstep
      · subst he
        exact ih fs2
      · exact Relation.ReflTransGen.head hstep (ih fs2)
    | error e =>
      exact Relation.ReflTransGen.refl

theorem driverRun_append (v : Bool) : ∀ (a b : List Str) (fs : FS),
    driverRun v fs (a ++ b)
      = match driverRun v fs a with
        | RunResult.ok fs2 => driverRun v fs2 b
        | RunResult.crashed fs2 => RunResult.crashed fs2 := by
  intro a
  induction a with
  | nil =>
    intro b fs
    simp [driverRun]
  | cons fn a2 ih =>
    intro b fs
    simp only [List.cons_append, driverRun]
    cases hp : processFile v fs fn with
    | ok fs2 => exact ih b fs2
    | error e => rfl

/-! ### The claims -/

/-- C1 (code bug): with `verbose = false` the scanner runs PAST a line
holding the stop marker `</ReferenceNumbers>` and extracts a name from a
later line, while with `verbose = true` the same file yields the empty
string — the `break` on line 93 is indented under `if args.verbose:`, so
termination at the stop marker depends on the logging flag, contradicting
the adjacent comment and the spec. -/
theorem C1_stop_marker_bug :
    file_load_and_search false (ReadResult.ok [sampleStopLine, sampleSearchLine])
      = "ACME".toList ∧
    file_load_and_search true (ReadResult.ok [sampleStopLine, sampleSearchLine]) = [] ∧
    strContains sampleStopLine END_SEEK_MARKER = true ∧
    strContains sampleStopLine CUST_ACCT_SEARCH_STR = false ∧
    strContains sampleSearchLine CUST_ACCT_SEARCH_STR = true := by
  refine ⟨by decide, by decide, by decide, by decide, by decide⟩

/-- C2 counterexample: for `fn = "ACME/inv.xml"` and token `ACME`, the
token does not occur in the basename, yet `file_rename` returns with the
filesystem untouched — the guard on line 116 tests the whole path. -/
theorem C2_counterexample :
    strContains (pyName ("ACME/inv.xml".toList)) ("ACME".toList) = false ∧
    file_rename ("ACME/inv.xml".toList) ("ACME".toList) fsDirTok
      = Except.ok fsDirTok := by
  refine ⟨by decide, by decide⟩

/-- C2 (amended): the renamer returns without touching the filesystem
exactly when the token occurs as a substring of the WHOLE path `fn`
(not just its basename); otherwise it issues the rename. -/
theorem C2_amended : ∀ (fn T : Str) (fs : FS),
    (strContains fn T = true ∧ file_rename fn T fs = Except.ok fs) ∨
    (strContains fn T = false ∧
      file_rename fn T fs = osRename fs fn (file_rename_target fn T)) := by
  intro fn T fs
  cases h : strContains fn T
  · refine Or.inr ⟨rfl, ?_⟩
    simp only [file_rename]
    rw [if_neg (by simp [h])]
  · refine Or.inl ⟨rfl, ?_⟩
    simp only [file_rename]
    rw [if_pos h]

/-- C3 counterexample: on the line `Customer Acct Number>A>B<C` the
substring strictly between the first `>` and the next `<` is `A>B`, but
the scanner returns `A` — `split(">")[1]` already truncates at the second
`>`. -/
theorem C3_counterexample :
    strContains sampleGtLine CUST_ACCT_SEARCH_STR = true ∧
    strContains sampleGtLine END_SEEK_MARKER = false ∧
    file_load_and_search false (ReadResult.ok [sampleGtLine]) = "A".toList ∧
    specBetween sampleGtLine = "A>B".toList ∧
    "A".toList ≠ "A>B".toList := by
  refine ⟨by decide, by decide, by decide, by decide, by decide⟩

/-- C3 (amended): when the scan reaches a line containing the search
marker and no stop marker, the scanner returns the text after the first
`>` truncated at the first following `>` or `<` (empty when `>` is
immediately followed by `<`, in which case the file is not renamed). -/
theorem C3_amended : ∀ (v : Bool) (pre : List Str) (data : Str) (rest : List Str),
    (∀ l ∈ pre, strContains l CUST_ACCT_SEARCH_STR = false ∧
      ¬(strContains l END_SEEK_MARKER = true ∧ v = true)) →
    strContains data CUST_ACCT_SEARCH_STR = true →
    strContains data END_SEEK_MARKER = false →
    file_load_and_search v (ReadResult.ok (pre ++ data :: rest)) = amendedToken data ∧
    (∀ (fs : FS) (fn : Str), readFS fs fn = ReadResult.ok (pre ++ data :: rest) →
      amendedToken data = [] → processFile v fs fn = Except.ok fs) := by
  intro v pre data rest hpre hsearch hstop
  have hscan : scanLoop v (pre ++ data :: rest) = scanLoop v (data :: rest) := by
    rw [scanLoop_append, scanLoop_pass v pre hpre]
  have hstep : scanLoop v (data :: rest)
      = match extractCustName data with
        | some t => ScanOutcome.done t
        | none => ScanOutcome.raised := by
    simp only [scanLoop]
    rw [if_neg (by simp [hstop]), if_pos hsearch]
  have hmain : file_load_and_search v (ReadResult.ok (pre ++ data :: rest))
      = amendedToken data := by
    simp only [file_load_and_search, hscan, hstep]
    by_cases hgt : ('>' : Char) ∈ data
    · rw [extractCustName_gt data hgt]
    · rw [extractCustName_no_gt hgt, amendedToken_no_gt hgt]
  refine ⟨hmain, ?_⟩
  intro fs fn hread hemp
  simp only [processFile, hread, hmain, hemp]
  simp

/-- C3 amended, applied: a one-line file whose line carries the search
marker yields the amended token, here `B`. -/
theorem C3_amended_witness :
    file_load_and_search false (ReadResult.ok ([] ++ lineTokenB :: [])) = "B".toList :=
  (C3_amended false [] lineTokenB [] (by simp) (by decide) (by decide)).1.trans (by decide)

/-- C4 counterexample: in `fsAB` the first file scans to token `A` but
its rename is refused; the whole run crashes with exit status 1 and the
filesystem untouched, although running on the second file alone exits 0
and renames it — a rename failure does abort the batch. -/
theorem C4_counterexample :
    mainRun false [] ["a.xml".toList, "b.xml".toList] fsAB = (1, fsAB) ∧
    (mainRun false [] ["b.xml".toList] fsAB).1 = 0 ∧
    (mainRun false [] ["b.xml".toList] fsAB).2 ≠ fsAB := by
  refine ⟨by decide, by decide, by decide⟩

/-- C4 (amended): a rename failure on one file ABORTS the batch: the
uncaught exception ends the loop, the remaining files are not processed,
the filesystem stays as it was before the failing file, and the process
exits with status 1. -/
theorem C4_amended : ∀ (v : Bool) (listing : List Str) (args : List Str) (fs0 : FS)
    (pre : List Str) (fs1 : FS) (f : Str) (post : List Str),
    read_cli v listing args = some (pre ++ f :: post) →
    driverRun v fs0 pre = RunResult.ok fs1 →
    processFile v fs1 f = Except.error () →
    mainRun v listing args fs0 = (1, fs1) := by
  intro v listing args fs0 pre fs1 f post h1 h2 h3
  simp only [mainRun, h1]
  rw [driverRun_append v pre (f :: post) fs0, h2]
  simp only [driverRun, h3]

/-- C4 amended, applied: the two-file run crashes at the first file. -/
theorem C4_amended_witness :
    mainRun false [] (([] : List Str) ++ "a.xml".toList :: ["b.xml".toList]) fsAB
      = (1, fsAB) :=
  C4_amended false [] _ fsAB [] fsAB ("a.xml".toList) ["b.xml".toList]
    (by decide) (by decide) (by decide)

/-- C5 counterexample: for the bare wildcard `*.xml` and a directory
containing `a.xml`, the resolver emits `.a.xml` — the current-directory
marker is concatenated with NO separator, so the emitted path is not of
the `dir + separator + name` form. -/
theorem C5_counterexample :
    resolve_windows_path false ["a.xml".toList] ("*.xml".toList) = [".a.xml".toList] ∧
    globMatch ("*.xml".toList) ("a.xml".toList) = true ∧
    ".a.xml".toList ≠ "./a.xml".toList ∧
    ".a.xml".toList ≠ ".\\a.xml".toList := by
  refine ⟨by decide, by decide, by decide, by decide⟩

/-- C5 (amended): with a directory component present (and the final
component not recurring elsewhere in the path), each emitted path is
`dir + separator + child`; but when the directory component is empty the
emitted paths are `.` concatenated DIRECTLY with the child name, with no
separator. -/
theorem C5_amended :
    (∀ (verbose : Bool) (listing : List Str) (dir name : Str),
      name ≠ [] → ('/' : Char) ∉ name → name ≠ ['.'] →
      strContains dir name = false →
      resolve_windows_path verbose listing (dir ++ '/' :: name)
        = (listing.filter (fun f => globMatch name f)).map (fun f => dir ++ '/' :: f)) ∧
    (∀ (verbose : Bool) (listing : List Str) (p : Str),
      p ≠ [] → ('/' : Char) ∉ p → p ≠ ['.'] →
      resolve_windows_path verbose listing p
        = (listing.filter (fun f => globMatch p f)).map (fun f => '.' :: f)) := by
  constructor
  · intro verbose listing dir name h1 h2 h3 hdir
    have hname : pyStem (dir ++ '/' :: name) ++ pySuffix (dir ++ '/' :: name) = name := by
      simp only [pyStem, pySuffix, pyName_concat h1 h2 h3]
      exact pyStemOfName_append_suffix name
    simp only [resolve_windows_path]
    rw [hname, strReplace_mid h1 h2 hdir]
    rw [if_neg (by simp)]
    simp [List.append_assoc]
  · intro verbose listing p h1 h2 h3
    have hp : pyStem p ++ pySuffix p = p := by
      have hn : pyName p = p := by
        simp only [pyName]
        rw [pathParts_single h1 h2 h3]
        simp
      simp only [pyStem, pySuffix, hn]
      exact pyStemOfName_append_suffix p
    simp only [resolve_windows_path]
    rw [hp, strReplace_self h1, if_pos rfl]
    simp

/-- C5 amended, applied: a wildcard under `d/` resolves to `d/`-prefixed
matches, and the bare wildcard `*.xml` yields `.`-concatenated names. -/
theorem C5_amended_witness :
    resolve_windows_path false ["CustA.xml".toList] ("d".toList ++ '/' :: "Cust*.xml".toList)
      = ["d".toList ++ '/' :: "CustA.xml".toList] ∧
    resolve_windows_path false ["a.xml".toList] ("*.xml".toList) = [".a.xml".toList] := by
  constructor
  · exact (C5_amended.1 false (["CustA.xml".toList]) ("d".toList) ("Cust*.xml".toList)
      (by decide) (by decide) (by decide) (by decide)).trans (by decide)
  · exact (C5_amended.2 false (["a.xml".toList]) ("*.xml".toList)
      (by decide) (by decide) (by decide)).trans (by decide)

/-- C6 (confirmed): for `fn = dir/<stem><ext>` (well-formed POSIX path)
and a separator-free token `T` not occurring in `fn`, the renamer issues
exactly the rename `fn → dir/T_<stem><ext>`; the new basename is the
token, an underscore, the old stem and the old extension, and the parent
directory is preserved. -/
theorem C6_rename_shape :
    ∀ (dir base T : Str) (fs : FS),
      base ≠ [] → ('/' : Char) ∉ base → base ≠ ['.'] →
      T ≠ [] → ('/' : Char) ∉ T →
      (dir = [] ∨ (renderPath (pathIsAbs dir) (pathParts dir) = dir ∧
        dir ≠ ['.'] ∧ dir ≠ ['/'])) →
      strContains (dir ++ '/' :: base) T = false →
      file_rename_target (dir ++ '/' :: base) T = dir ++ '/' :: (T ++ '_' :: base) ∧
      pyName (dir ++ '/' :: (T ++ '_' :: base))
        = T ++ '_' :: (pyStem (dir ++ '/' :: base) ++ pySuffix (dir ++ '/' :: base)) ∧
      pyParent (dir ++ '/' :: (T ++ '_' :: base)) = pyParent (dir ++ '/' :: base) ∧
      file_rename (dir ++ '/' :: base) T fs
        = osRename fs (dir ++ '/' :: base) (dir ++ '/' :: (T ++ '_' :: base)) := by
  intro dir base T fs hb1 hb2 hb3 hT1 hT2 hdir hguard
  have hnb1 : (T ++ '_' :: base) ≠ [] := by
    cases T <;> simp
  have hnb2 : ('/' : Char) ∉ (T ++ '_' :: base) := by
    intro hm
    rcases List.mem_append.1 hm with hm1 | hm1
    · exact hT2 hm1
    · rcases List.mem_cons.1 hm1 with he | hm2
      · exact absurd he (by decide)
      · exact hb2 hm2
  have hnbdot : (T ++ '_' :: base) ≠ ['.'] := by
    intro he
    have hlen := congrArg List.length he
    simp at hlen
    have hT0 : T.length = 0 := by omega
    exact hT1 (List.length_eq_zero.1 hT0)
  have hname : pyName (dir ++ '/' :: base) = base := pyName_concat hb1 hb2 hb3
  have hstem : pyStem (dir ++ '/' :: base) ++ pySuffix (dir ++ '/' :: base) = base := by
    simp only [pyStem, pySuffix, hname]
    exact pyStemOfName_append_suffix base
  have hparts : pathParts (dir ++ '/' :: base) = pathParts dir ++ [base] := by
    rw [pathParts_sep_append, pathParts_single hb1 hb2 hb3]
  have hparts2 : pathParts (dir ++ '/' :: (T ++ '_' :: base))
      = pathParts dir ++ [T ++ '_' :: base] := by
    rw [pathParts_sep_append, pathParts_single hnb1 hnb2 hnbdot]
  have habs2 : pathIsAbs (dir ++ '/' :: (T ++ '_' :: base))
      = pathIsAbs (dir ++ '/' :: base) := by
    cases dir with
    | nil => simp [pathIsAbs]
    | cons d ds => simp [pathIsAbs]
  have hparent : pyParent (dir ++ '/' :: base)
      = renderPath (pathIsAbs (dir ++ '/' :: base)) (pathParts dir) := by
    simp only [pyParent, hparts]
    rw [List.dropLast_concat]
  have hparent2 : pyParent (dir ++ '/' :: (T ++ '_' :: base))
      = renderPath (pathIsAbs (dir ++ '/' :: base)) (pathParts dir) := by
    simp only [pyParent, hparts2, habs2]
    rw [List.dropLast_concat]
  have hclean := pathParts_clean dir
  have htarget : file_rename_target (dir ++ '/' :: base) T
      = dir ++ '/' :: (T ++ '_' :: base) := by
    simp only [file_rename_target, hstem]
    rw [hparent]
    simp only [pyJoin]
    have habs_nb : pathIsAbs (T ++ '_' :: base) = false := pathIsAbs_head hT1 hT2 _
    rw [if_neg (by simp [habs_nb])]
    rw [pathParts_render _ _ hclean, pathIsAbs_render _ _ hclean]
    rw [pathParts_single hnb1 hnb2 hnbdot]
    rw [← habs2]
    exact renderPath_concat hnb1 hnbdot hnb2 hdir
  refine ⟨htarget, ?_, ?_, ?_⟩
  · rw [hstem]
    exact pyName_concat hnb1 hnb2 hnbdot
  · rw [hparent2, hparent]
  · simp only [file_rename]
    rw [if_neg (by simp [hguard]), htarget]

/-- C6, applied: `d/inv.xml` with token `ACME` renames to
`d/ACME_inv.xml`. -/
theorem C6_rename_shape_witness :
    file_rename_target ("d".toList ++ '/' :: "inv.xml".toList) ("ACME".toList)
      = "d".toList ++ '/' :: ("ACME".toList ++ '_' :: "inv.xml".toList) :=
  (C6_rename_shape ("d".toList) ("inv.xml".toList) ("ACME".toList) []
    (by decide) (by decide) (by decide) (by decide) (by decide)
    (Or.inr ⟨by decide, by decide, by decide⟩) (by decide)).1

/-- C7 (confirmed): when a read fails (at open or mid-scan) before the
loop has terminated, the bare `except:` yields the empty string, the file
is skipped without rename, and the driver continues with the rest. -/
theorem C7_scan_failure : ∀ (v : Bool) (pre : List Str),
    scanLoop v pre = ScanOutcome.more →
    file_load_and_search v (ReadResult.failAt pre) = [] ∧
    (∀ (fs : FS) (fn : Str) (rest : List Str),
      readFS fs fn = ReadResult.failAt pre →
      processFile v fs fn = Except.ok fs ∧
      driverRun v fs (fn :: rest) = driverRun v fs rest) := by
  intro v pre hmore
  have hmain : file_load_and_search v (ReadResult.failAt pre) = [] := by
    simp only [file_load_and_search, hmore]
  refine ⟨hmain, ?_⟩
  intro fs fn rest hread
  have hpf : processFile v fs fn = Except.ok fs := by
    simp only [processFile, hread, hmain]
    simp
  exact ⟨hpf, by simp only [driverRun, hpf]⟩

/-- C7, applied: a missing file (read fails at `open`) is skipped. -/
theorem C7_scan_failure_witness :
    file_load_and_search false (ReadResult.failAt []) = [] ∧
    processFile false [] ("gone.xml".toList) = Except.ok [] := by
  have h := C7_scan_failure false [] (by decide)
  exact ⟨h.1, (h.2 [] ("gone.xml".toList) [] (by decide)).1⟩

/-- C8 (confirmed): over a whole invocation the final filesystem is
reachable from the initial one by renames of existing, renamable files
alone — the program performs no other filesystem mutation, whatever the
input list and the pre-existing state. -/
theorem C8_only_renames : ∀ (verbose : Bool) (listing : List Str) (args : List Str) (fs : FS),
    Relation.ReflTransGen RenameStep fs (mainRun verbose listing args fs).2 := by
  intro v listing args fs
  simp only [mainRun]
  cases hr : read_cli v listing args with
  | none =>
    exact Relation.ReflTransGen.refl
  | some files =>
    dsimp only
    have h := driverRun_reach v files fs
    cases hd : driverRun v fs files with
    | ok fs2 =>
      rw [hd] at h
      simpa [resultFS] using h
    | crashed fs2 =>
      rw [hd] at h
      simpa [resultFS] using h

/-- C9 (confirmed): an empty token never causes a rename — the empty
string is a substring of every path, so the guard fires — and the driver
only calls the renamer when the scanner returned a non-empty name. -/
theorem C9_empty_token :
    (∀ (fn : Str) (fs : FS), file_rename fn [] fs = Except.ok fs) ∧
    (∀ (v : Bool) (fs : FS) (fn : Str),
      file_load_and_search v (readFS fs fn) = [] →
      processFile v fs fn = Except.ok fs) := by
  constructor
  · intro fn fs
    simp only [file_rename]
    rw [if_pos (strContains_nil fn)]
  · intro v fs fn h
    simp only [processFile, h]
    simp

/-- C9, applied. -/
theorem C9_empty_token_witness :
    file_rename ("x.xml".toList) [] [] = Except.ok [] ∧
    processFile false [] ("x.xml".toList) = Except.ok [] :=
  ⟨C9_empty_token.1 ("x.xml".toList) [], C9_empty_token.2 false [] ("x.xml".toList) (by decide)⟩

/-- C10 (confirmed): if the first search-marker line has no `>` at all,
the extraction raises `IndexError`, the bare `except:` catches it, the
scanner returns empty, and the driver skips the file and continues. -/
theorem C10_no_gt_exception : ∀ (v : Bool) (pre : List Str) (data : Str) (rest : List Str),
    (∀ l ∈ pre, strContains l CUST_ACCT_SEARCH_STR = false) →
    strContains data CUST_ACCT_SEARCH_STR = true →
    ('>' : Char) ∉ data →
    file_load_and_search v (ReadResult.ok (pre ++ data :: rest)) = [] ∧
    (∀ (fs : FS) (fn : Str) (rest2 : List Str),
      readFS fs fn = ReadResult.ok (pre ++ data :: rest) →
      processFile v fs fn = Except.ok fs ∧
      driverRun v fs (fn :: rest2) = driverRun v fs rest2) := by
  intro v pre data rest hpre hsearch hgt
  have hstop : strContains data END_SEEK_MARKER = false := by
    cases hc : strContains data END_SEEK_MARKER
    · rfl
    · exact absurd (mem_of_strContains hc (by decide)) hgt
  have hstep : scanLoop v (data :: rest) = ScanOutcome.raised := by
    simp only [scanLoop]
    rw [if_neg (by simp [hstop]), if_pos hsearch, extractCustName_no_gt hgt]
  have hmain : file_load_and_search v (ReadResult.ok (pre ++ data :: rest)) = [] := by
    simp only [file_load_and_search]
    rw [scanLoop_append]
    rcases scanLoop_nosearch v pre hpre with hm | hd
    · rw [hm, hstep]
    · rw [hd]
  refine ⟨hmain, ?_⟩
  intro fs fn rest2 hread
  have hpf : processFile v fs fn = Except.ok fs := by
    simp only [processFile, hread, hmain]
    simp
  exact ⟨hpf, by simp only [driverRun, hpf]⟩

/-- C10, applied: a marker line with no tags at all is skipped. -/
theorem C10_no_gt_exception_witness :
    file_load_and_search false
      (ReadResult.ok ([] ++ "Customer Acct Number, no tags".toList :: [])) = [] :=
  (C10_no_gt_exception false [] ("Customer Acct Number, no tags".toList) []
    (by simp) (by decide) (by decide)).1

end Kastro
